import Mathlib

/-!
Shallow embedding of the huffman compressor (src/encode.rs, src/decode.rs).

Modelling conventions, used throughout:
* Rust strings and string slices are modelled as `List Char`; the raw file
  contents are modelled as `List Nat` (one `Nat` per byte).  Header text is
  ASCII in every run considered here, so byte indexing and char indexing
  coincide on the modelled data.
* `u32` frequencies are modelled as `Nat` (symbol counts are bounded by the
  length of the in-memory input).
* A Rust `panic!` / failed `assert!` / out-of-bounds slice is modelled as
  `none` of an `Option` result; `some` is a normal return.  The Rust code has
  no error-value channel for format problems (its `Result`s only propagate
  I/O errors, which are outside the core being modelled).
* `HashMap` is modelled as an association list with unique keys; `insert`
  replaces the value in place when the key is present and appends otherwise,
  and iteration order is the list order.  The real `HashMap` iterates in an
  arbitrary, randomly seeded order; wherever that order matters for a claim
  the order is made an explicit parameter (see `compressFromFreq`).
* `BinaryHeap` with the flipped `Ord` of `encode.rs` is modelled as a list
  together with `popMin`, which removes the first element of minimal
  frequency.
-/

namespace Huffman

/-- Association-list lookup, first match; models `HashMap::get`. -/
def lookupT {α : Type} (k : Char) : List (Char × α) → Option α
  | [] => none
  | p :: rest => if p.1 = k then some p.2 else lookupT k rest

/-- Association-list insert: replace in place if the key is present, append
otherwise; models `HashMap::insert` (keys stay unique). -/
def insertT {α : Type} (k : Char) (v : α) : List (Char × α) → List (Char × α)
  | [] => [(k, v)]
  | p :: rest => if p.1 = k then (k, v) :: rest else p :: insertT k v rest

/-- Encode-side tree node, from `encode.rs`: `Node::Branch(Root)` carries
`left`, `right` and `frequency`; `Node::Leaf(Symbol)` carries `value` and
`frequency`. -/
inductive Node : Type
  | branch (left right : Node) (frequency : Nat)
  | leaf (value : Char) (frequency : Nat)
deriving DecidableEq

/-- `Node::variant_freq` from `encode.rs`. -/
def Node.variant_freq : Node → Nat
  | .branch _ _ f => f
  | .leaf _ f => f

/-- `Node::cmp_pair` from `encode.rs`: the strictly smaller node goes left,
otherwise the other node goes left. -/
def Node.cmp_pair (n1 n2 : Node) : Node × Node :=
  if n1.variant_freq < n2.variant_freq then (n1, n2) else (n2, n1)

/-- The encoding table built by `Node::generate_encoding`: symbol to bit
path (`BitVec<u8, Msb0>` modelled as `List Bool`, logical bit order). -/
abbrev TableB : Type := List (Char × List Bool)

/-- Body of the `encode_child!` macro of `encode.rs`, inlined: a leaf child
inserts its symbol with the extended path, a branch child is traversed
recursively.  The recursive call in the source is only ever made on a
`Node::Branch`, for which the traversal never panics, so this inner
traversal is total. -/
def genEncGo : Node → List Bool → TableB → TableB
  | .leaf v _, path, tbl => insertT v path tbl
  | .branch l r _, path, tbl =>
      genEncGo r (path ++ [true]) (genEncGo l (path ++ [false]) tbl)

/-- `Node::generate_encoding` from `encode.rs`: panics (`none`) when invoked
on a `Node::Leaf`; on a branch it encodes the left child with `path ++ [0]`
and the right child with `path ++ [1]`. -/
def generate_encoding (n : Node) (path : List Bool) (tbl : TableB) : Option TableB :=
  match n with
  | .leaf _ _ => none
  | .branch _ _ _ => some (genEncGo n path tbl)

/-- `or_insert(0) += 1` step of `init_frequency_table`. -/
def bump (c : Char) : List (Char × Nat) → List (Char × Nat)
  | [] => [(c, 1)]
  | p :: rest => if p.1 = c then (p.1, p.2 + 1) :: rest else p :: bump c rest

/-- `init_frequency_table` from `encode.rs`: counts occurrences of each
character of the input (association list in first-occurrence order; the
real `HashMap` holds the same key/count pairs in an arbitrary order). -/
def init_frequency_table (contents : List Char) : List (Char × Nat) :=
  contents.foldl (fun t c => bump c t) []

/-- `init_symbol_nodes_prio_queue` from `encode.rs`: one leaf per distinct
symbol, in the iteration order of the frequency table. -/
def init_symbol_nodes_prio_queue (tbl : List (Char × Nat)) : List Node :=
  tbl.map (fun p => Node.leaf p.1 p.2)

/-- `BinaryHeap::pop` under the flipped `Ord` of `encode.rs`: removes a node
of minimal frequency (the first such node in list order). -/
def popMin : List Node → Option (Node × List Node)
  | [] => none
  | x :: xs =>
      match popMin xs with
      | none => some (x, [])
      | some (m, rest) =>
          if x.variant_freq ≤ m.variant_freq then some (x, xs)
          else some (m, x :: rest)

/-- The merge loop of `create_huffman_tree`, with fuel (the list length
shrinks by one per merge, so `l.length` fuel always suffices): while more
than one node remains, pop the two smallest, build a branch whose frequency
is their sum, ordered by `cmp_pair`, and push it back. -/
def chtGo : Nat → List Node → Option Node
  | 0, _ => none
  | fuel + 1, l =>
      match popMin l with
      | none => none
      | some (n1, l1) =>
          match popMin l1 with
          | none => some n1
          | some (n2, l2) =>
              let f := n1.variant_freq + n2.variant_freq
              let p := n1.cmp_pair n2
              chtGo fuel (Node.branch p.1 p.2 f :: l2)

/-- `create_huffman_tree` from `encode.rs`: panics (`none`) on an empty
priority queue, otherwise merges until a single root remains. -/
def create_huffman_tree (l : List Node) : Option Node :=
  match l with
  | [] => none
  | _ :: _ => chtGo l.length l

/-- `generate_encoding_table` from `encode.rs`: frequency table, priority
queue, huffman tree (panics on empty input), then tree traversal (panics on
a single-leaf tree). -/
def generate_encoding_table (contents : List Char) : Option TableB :=
  match create_huffman_tree (init_symbol_nodes_prio_queue (init_frequency_table contents)) with
  | none => none
  | some tree => generate_encoding tree [] []

/-- `fmt_bitvec` from `encode.rs`: bits to a string of '0'/'1' characters. -/
def fmt_bitvec (bits : List Bool) : List Char :=
  bits.map (fun b => if b then '1' else '0')

/-- One header table line without its trailing newline: the symbol (escaped
as the two characters backslash-n when it is the newline character) followed
by the formatted code. -/
def rowBody (p : Char × List Bool) : List Char :=
  (if p.1 = '\n' then ['\\', 'n'] else [p.1]) ++ fmt_bitvec p.2

/-- One header table line of `compress` in `encode.rs`, newline included. -/
def serRow (p : Char × List Bool) : List Char :=
  rowBody p ++ ['\n']

/-- The table part of the header written by `compress`, in table iteration
order. -/
def serializeTable (t : TableB) : List Char :=
  (t.map serRow).flatten

/-- Grouping of the packed bit buffer into chunks of at most 8 bits, as
`bit_vec_buff.chunks(8)` does (fuel-structural; `l.length` fuel suffices). -/
def chunks8Go : Nat → List Bool → List (List Bool)
  | 0, _ => []
  | fuel + 1, l =>
      match l with
      | [] => []
      | _ :: _ => l.take 8 :: chunks8Go fuel (l.drop 8)

/-- `chunks(8)` over the packed bit sequence. -/
def chunks8 (l : List Bool) : List (List Bool) :=
  chunks8Go l.length l

/-- `chunk.load::<u8>()` on a `Lsb0` chunk: the first logical bit is the
least significant; a final chunk shorter than 8 bits leaves the high bits
zero. -/
def loadLsb0 : List Bool → Nat
  | [] => 0
  | b :: rest => (if b then 1 else 0) + 2 * loadLsb0 rest

/-- Decimal rendering of the entry count. -/
def decRepr (n : Nat) : List Char :=
  Nat.toDigits 10 n

/-- ASCII bytes of header text. -/
def strBytes (s : List Char) : List Nat :=
  s.map Char.toNat

/-- `compress` from `encode.rs` after the input has been read, given the
frequency table in its (arbitrary) `HashMap` iteration order: the output
file bytes are the count line, the table lines, and the packed payload where
each symbol's code is looked up (`None => continue` skips symbols missing
from the table) and the concatenated bits are packed into bytes. -/
def compressFromFreq (freq : List (Char × Nat)) (contents : List Char) : Option (List Nat) :=
  match create_huffman_tree (init_symbol_nodes_prio_queue freq) with
  | none => none
  | some tree =>
      match generate_encoding tree [] [] with
      | none => none
      | some table =>
          let head := strBytes (decRepr table.length ++ ['\n'])
          let tbuf := strBytes (serializeTable table)
          let bits := (contents.map (fun c => (lookupT c table).getD [])).flatten
          let payload := (chunks8 bits).map loadLsb0
          some (head ++ tbuf ++ payload)

/-- `compress` from `encode.rs` (file I/O stripped): the frequency table is
iterated in the model's first-occurrence order. -/
def compress (contents : List Char) : Option (List Nat) :=
  compressFromFreq (init_frequency_table contents) contents

/-- Decode-side tree node, from `decode.rs`: a branch holds two optional
children (`Root`), a leaf holds its symbol. -/
inductive DNode : Type
  | branch (left right : Option DNode)
  | leaf (value : Char)

/-- `Root` of `decode.rs`: two optional children. -/
structure DRoot : Type where
  left : Option DNode
  right : Option DNode

/-- `Root::default()` of `decode.rs`. -/
def DRoot.default : DRoot := ⟨none, none⟩

/-- `Node::Branch(root)` as a node. -/
def DNode.ofRoot (r : DRoot) : DNode := DNode.branch r.left r.right

/-- `Node::branch` of `decode.rs`: `Some(root)` on a branch, `None` on a
leaf. -/
def DNode.asBranch : DNode → Option DRoot
  | .branch l r => some ⟨l, r⟩
  | .leaf _ => none

/-- The parsed header table: symbol to code string. -/
abbrev TableS : Type := List (Char × List Char)

/-- Strip one trailing carriage return, as `str::lines` does for a segment
terminated by a newline. -/
def stripCR (l : List Char) : List Char :=
  if l.getLast? = some '\r' then l.dropLast else l

/-- Worker for `str::lines`: accumulate the current line, emit it (with its
trailing carriage return stripped) at each newline, and emit a final
unterminated line only when it is nonempty. -/
def linesAux : List Char → List Char → List (List Char)
  | [], cur => if cur.isEmpty then [] else [cur]
  | c :: rest, cur =>
      if c = '\n' then stripCR cur :: linesAux rest []
      else linesAux rest (cur ++ [c])

/-- `str::lines` over the raw table text. -/
def linesModel (s : List Char) : List (List Char) :=
  linesAux s []

/-- The line loop of `Reconst::huffman_table` in `decode.rs`: an empty line
breaks; otherwise the key is the first character, with a leading backslash
standing for the newline symbol; the code starts at byte 2 for a newline key
(panicking, `none`, when the line is shorter than that slice) and at byte 1
otherwise. -/
def parseLines : List (List Char) → TableS → Option TableS
  | [], t => some t
  | line :: rest, t =>
      match line with
      | [] => some t
      | k0 :: _ =>
          let key := if k0 = '\\' then '\n' else k0
          if key = '\n' then
            if 2 ≤ line.length then parseLines rest (insertT key (line.drop 2) t)
            else none
          else parseLines rest (insertT key (line.drop 1) t)

/-- `Reconst::huffman_table` from `decode.rs`. -/
def huffman_table (raw : List Char) : Option TableS :=
  parseLines (linesModel raw) []

/-- `Root::new_traverse` from `decode.rs`: with a single-character code the
leaf is written into the root's child slot, silently replacing whatever was
there; with a longer code the child slot is extended (`extend!`), panicking
(`none`) when the occupied slot holds a leaf; an empty code or a character
other than '0'/'1' panics. -/
def new_traverse : Option DRoot → List Char → Char → Option DRoot
  | bootstrap, code, symbol_value =>
      let root := bootstrap.getD DRoot.default
      match code with
      | [] => none
      | [ch] =>
          if ch = '1' then some { root with right := some (DNode.leaf symbol_value) }
          else if ch = '0' then some { root with left := some (DNode.leaf symbol_value) }
          else none
      | ch :: rest =>
          if ch = '1' then
            match root.right with
            | some tree =>
                match tree.asBranch with
                | none => none
                | some sub =>
                    (new_traverse (some sub) rest symbol_value).map
                      (fun r => { root with right := some (DNode.ofRoot r) })
            | none =>
                (new_traverse none rest symbol_value).map
                  (fun r => { root with right := some (DNode.ofRoot r) })
          else if ch = '0' then
            match root.left with
            | some tree =>
                match tree.asBranch with
                | none => none
                | some sub =>
                    (new_traverse (some sub) rest symbol_value).map
                      (fun r => { root with left := some (DNode.ofRoot r) })
            | none =>
                (new_traverse none rest symbol_value).map
                  (fun r => { root with left := some (DNode.ofRoot r) })
          else none

/-- `Root::from_table` from `decode.rs`: fold `new_traverse` over the table
entries in iteration order, starting from the default root. -/
def from_table (t : TableS) : Option DRoot :=
  t.foldlM (fun acc p => new_traverse (some acc) p.2 p.1) DRoot.default

/-- `Root::walk` from `decode.rs`: step to the right child on a 1 bit and to
the left child on a 0 bit; a missing child panics (`none`). -/
def walk (root : DRoot) (code_elem : Bool) : Option DNode :=
  match (if code_elem then root.right else root.left) with
  | some node => some node
  | none => none

/-- Loop body of `tread` from `decode.rs`: walk from the saved position (or
the root), emit a symbol and reset at each leaf. -/
def treadGo (huffman_tree : DRoot) : Option DRoot → List Bool → Option (List Char)
  | _, [] => some []
  | walk_root, code :: rest =>
      let leg := walk_root.getD huffman_tree
      match walk leg code with
      | none => none
      | some (DNode.leaf v) =>
          (treadGo huffman_tree none rest).map (fun s => v :: s)
      | some (DNode.branch l r) =>
          treadGo huffman_tree (some ⟨l, r⟩) rest

/-- `tread` from `decode.rs`. -/
def tread (huffman_tree : DRoot) (code_path : List Bool) : Option (List Char) :=
  treadGo huffman_tree none code_path

/-- `u8::from_str` on the count line: optional leading plus sign, at least
one digit, all digits, value below 256. -/
def parseU8 (l : List Char) : Option Nat :=
  let ds := if l.head? = some '+' then l.tail else l
  match ds with
  | [] => none
  | _ =>
      if ds.all Char.isDigit then
        let v := ds.foldl (fun acc c => 10 * acc + (c.toNat - 48)) 0
        if v < 256 then some v else none
      else none

/-- `BufReader::read_line` over bytes: everything up to and including the
first newline byte, plus the rest. -/
def readLineB : List Nat → List Nat × List Nat
  | [] => ([], [])
  | b :: rest =>
      if b = 10 then ([b], rest)
      else
        let p := readLineB rest
        (b :: p.1, p.2)

/-- `entry_count` successive `read_line` calls, concatenated, with the
remaining bytes. -/
def readNLines : Nat → List Nat → List Nat × List Nat
  | 0, s => ([], s)
  | n + 1, s =>
      let p := readLineB s
      let q := readNLines n p.2
      (p.1 ++ q.1, q.2)

/-- Bytes to characters (the header is ASCII in the modelled runs). -/
def charsOfBytes (bs : List Nat) : List Char :=
  bs.map Char.ofNat

/-- `parse_header` and `Reconst::from_str` from `decode.rs`: read the first
line, drop its last character (`line.pop()`), parse it as a `u8` (panicking,
`none`, when it is not one), read that many table lines, parse them with
`huffman_table`, panic unless the parsed entry count matches the declared
one (`assert!`, with the length truncated to `u8` as in the source), and
rebuild the tree with `from_table`.  Returns the reconstruction together
with the unread remainder of the file. -/
def parse_header (bytes : List Nat) : Option (TableS × DRoot × List Nat) :=
  let p1 := readLineB bytes
  let line := (charsOfBytes p1.1).dropLast
  match parseU8 line with
  | none => none
  | some entry_count =>
      let p2 := readNLines entry_count p1.2
      match huffman_table (charsOfBytes p2.1) with
      | none => none
      | some table =>
          if table.length % 256 = entry_count then
            match from_table table with
            | none => none
            | some tree => some (table, tree, p2.2)
          else none

/-- `read_until(b'\0')`: all bytes up to and including the first zero byte,
or the whole input when there is none. -/
def readUntil0 : List Nat → List Nat
  | [] => []
  | b :: rest => if b = 0 then [b] else b :: readUntil0 rest

/-- `BitVec::<u8, Lsb0>::from_vec`: each byte contributes its 8 bits, least
significant first. -/
def byteBits (b : Nat) : List Bool :=
  (List.range 8).map (fun i => b / 2 ^ i % 2 == 1)

/-- `decompress` from `decode.rs` (file I/O stripped): parse the header,
read the remaining bytes up to a zero byte, unpack them LSB-first and walk
the reconstructed tree. -/
def decompress (bytes : List Nat) : Option (List Char) :=
  match parse_header bytes with
  | none => none
  | some (_, tree, rest) =>
      tread tree ((readUntil0 rest).map byteBits).flatten

/-- Compression followed by decompression of the produced file. -/
def roundTrip (contents : List Char) : Option (List Char) :=
  match compress contents with
  | none => none
  | some file => decompress file

theorem lookupT_insertT_self {α : Type} (k : Char) (v : α) (t : List (Char × α)) :
    lookupT k (insertT k v t) = some v := by
  induction t with
  | nil => simp [insertT, lookupT]
  | cons p rest ih =>
      by_cases h : p.1 = k
      · simp [insertT, h, lookupT]
      · simp [insertT, h, lookupT, ih]

theorem lookupT_insertT_ne {α : Type} (c k : Char) (v : α) (t : List (Char × α))
    (h : c ≠ k) : lookupT c (insertT k v t) = lookupT c t := by
  have hkc : ¬ k = c := fun hk => h hk.symm
  induction t with
  | nil => simp [insertT, lookupT, hkc]
  | cons p rest ih =>
      by_cases hp : p.1 = k
      · have hpc : ¬ p.1 = c := by rw [hp]; exact hkc
        simp [insertT, hp, lookupT, hkc, hpc]
      · by_cases hc : p.1 = c
        · simp [insertT, hp, lookupT, hc, h]
        · simp [insertT, hp, lookupT, hc, ih]

/-- The (symbol, root-to-leaf path) pairs of a tree, paths relative to the
given node; the reference shape against which the generated table is
checked. -/
def relLeafCodes : Node → List (Char × List Bool)
  | .leaf v _ => [(v, [])]
  | .branch l r _ =>
      (relLeafCodes l).map (fun p => (p.1, false :: p.2)) ++
      (relLeafCodes r).map (fun p => (p.1, true :: p.2))

theorem relLeafCodes_prefix_eq :
    ∀ (n : Node) (p q : Char × List Bool), p ∈ relLeafCodes n → q ∈ relLeafCodes n →
      p.2 <+: q.2 → p = q := by
  intro n
  induction n with
  | leaf v f =>
      intro p q hp hq _
      simp [relLeafCodes] at hp hq
      rw [Prod.ext_iff]
      simp [hp, hq]
  | branch l r f ihl ihr =>
      intro p q hp hq hpre
      simp only [relLeafCodes, List.mem_append, List.mem_map] at hp hq
      rcases hp with ⟨a, ha, rfl⟩ | ⟨a, ha, rfl⟩ <;>
        rcases hq with ⟨b, hb, rfl⟩ | ⟨b, hb, rfl⟩ <;>
          simp only [List.cons_prefix_cons] at hpre
      · have := ihl a b ha hb hpre.2
        rw [this]
      · exact absurd hpre.1 (by simp)
      · exact absurd hpre.1 (by simp)
      · have := ihr a b ha hb hpre.2
        rw [this]

theorem genEncGo_lookup :
    ∀ (n : Node) (path : List Bool) (acc : TableB) (k : Char) (v : List Bool),
      lookupT k (genEncGo n path acc) = some v →
      (∃ rc, (k, rc) ∈ relLeafCodes n ∧ v = path ++ rc) ∨ lookupT k acc = some v := by
  intro n
  induction n with
  | leaf w f =>
      intro path acc k v h
      by_cases hkw : k = w
      · subst hkw
        rw [genEncGo, lookupT_insertT_self] at h
        exact Or.inl ⟨[], by simp [relLeafCodes], by simpa using h.symm⟩
      · rw [genEncGo, lookupT_insertT_ne _ _ _ _ hkw] at h
        exact Or.inr h
  | branch l r f ihl ihr =>
      intro path acc k v h
      rw [genEncGo] at h
      rcases ihr _ _ _ _ h with ⟨rc, hm, rfl⟩ | h2
      · refine Or.inl ⟨true :: rc, ?_, by simp⟩
        simp only [relLeafCodes, List.mem_append, List.mem_map]
        exact Or.inr ⟨(k, rc), hm, rfl⟩
      · rcases ihl _ _ _ _ h2 with ⟨rc, hm, rfl⟩ | h3
        · refine Or.inl ⟨false :: rc, ?_, by simp⟩
          simp only [relLeafCodes, List.mem_append, List.mem_map]
          exact Or.inl ⟨(k, rc), hm, rfl⟩
        · exact Or.inr h3

/-- C4 (confirmed).  Any two distinct entries of a table generated by
`Node::generate_encoding` from a huffman tree have codes neither of which is
a prefix of the other: the generated code set is prefix-free. -/
theorem c4_generated_table_prefix_free (tree : Node) (tbl : TableB)
    (ht : generate_encoding tree [] [] = some tbl)
    (s1 s2 : Char) (c1 c2 : List Bool)
    (h1 : lookupT s1 tbl = some c1) (h2 : lookupT s2 tbl = some c2)
    (hne : (s1, c1) ≠ (s2, c2)) : ¬ c1 <+: c2 := by
  intro hpre
  cases tree with
  | leaf v f => exact Option.noConfusion ht
  | branch l r f =>
      rw [generate_encoding, Option.some_inj] at ht
      subst ht
      rcases genEncGo_lookup _ _ _ _ _ h1 with ⟨rc1, hm1, hv1⟩ | hbad
      · rcases genEncGo_lookup _ _ _ _ _ h2 with ⟨rc2, hm2, hv2⟩ | hbad2
        · apply hne
          have he1 : (s1, c1) = (s1, rc1) := by rw [hv1]; simp
          have he2 : (s2, c2) = (s2, rc2) := by rw [hv2]; simp
          rw [he1, he2]
          apply relLeafCodes_prefix_eq (Node.branch l r f) (s1, rc1) (s2, rc2)
            (by simpa using hm1) (by simpa using hm2)
          show rc1 <+: rc2
          have h3 : c1 = rc1 := by rw [hv1]; simp
          have h4 : c2 = rc2 := by rw [hv2]; simp
          rw [← h3, ← h4]
          exact hpre
        · simp [lookupT] at hbad2
      · simp [lookupT] at hbad

/-- The branch-sum invariant of the claim: every branch's frequency equals
the sum of its two children's frequencies. -/
def invB : Node → Bool
  | .leaf _ _ => true
  | .branch l r f => (f == l.variant_freq + r.variant_freq) && invB l && invB r

/-- Sum of all leaf frequencies of a tree. -/
def leafSum : Node → Nat
  | .leaf _ f => f
  | .branch l r _ => leafSum l + leafSum r

/-- Total frequency of a node list. -/
def nodesum (l : List Node) : Nat :=
  (l.map Node.variant_freq).sum

/-- Total count of a frequency table. -/
def countSum (t : List (Char × Nat)) : Nat :=
  (t.map Prod.snd).sum

theorem popMin_eq_none {l : List Node} : popMin l = none ↔ l = [] := by
  cases l with
  | nil => simp [popMin]
  | cons x xs =>
      simp only [popMin]
      cases popMin xs with
      | none => simp
      | some p => obtain ⟨m, r⟩ := p; simp only; split <;> simp

theorem popMin_perm {l rest : List Node} {n : Node} (h : popMin l = some (n, rest)) :
    l.Perm (n :: rest) := by
  induction l generalizing n rest with
  | nil => simp [popMin] at h
  | cons x xs ih =>
      simp only [popMin] at h
      cases hx : popMin xs with
      | none =>
          simp only [hx] at h
          cases h
          have hxs : xs = [] := popMin_eq_none.mp hx
          subst hxs
          exact List.Perm.refl _
      | some p =>
          obtain ⟨m, r⟩ := p
          simp only [hx] at h
          by_cases hle : x.variant_freq ≤ m.variant_freq
          · rw [if_pos hle] at h; cases h; exact List.Perm.refl _
          · rw [if_neg hle] at h
            cases h
            exact ((ih hx).cons x).trans (List.Perm.swap _ _ _)

theorem popMin_nodesum {l rest : List Node} {n : Node} (h : popMin l = some (n, rest)) :
    nodesum l = n.variant_freq + nodesum rest := by
  simpa [nodesum] using ((popMin_perm h).map Node.variant_freq).sum_eq

theorem popMin_mem {l rest : List Node} {n : Node} (h : popMin l = some (n, rest)) :
    n ∈ l ∧ ∀ x ∈ rest, x ∈ l := by
  constructor
  · exact (popMin_perm h).mem_iff.mpr (List.mem_cons_self _ _)
  · intro x hx
    exact (popMin_perm h).mem_iff.mpr (List.mem_cons_of_mem _ hx)

theorem popMin_length {l rest : List Node} {n : Node} (h : popMin l = some (n, rest)) :
    l.length = rest.length + 1 := by
  simpa using (popMin_perm h).length_eq

theorem chtGo_succ (fuel : Nat) (l : List Node) :
    chtGo (fuel + 1) l =
      match popMin l with
      | none => none
      | some (n1, l1) =>
          match popMin l1 with
          | none => some n1
          | some (n2, l2) =>
              chtGo fuel (Node.branch (n1.cmp_pair n2).1 (n1.cmp_pair n2).2
                (n1.variant_freq + n2.variant_freq) :: l2) := rfl

theorem chtGo_spec :
    ∀ (fuel : Nat) (l : List Node), l ≠ [] → l.length ≤ fuel + 1 →
      (∀ x ∈ l, invB x = true) →
      ∃ t, chtGo (fuel + 1) l = some t ∧ invB t = true ∧ t.variant_freq = nodesum l := by
  intro fuel
  induction fuel with
  | zero =>
      intro l hne hlen hinv
      match l, hne, hlen with
      | [x], _, _ =>
          refine ⟨x, ?_, hinv x (by simp), by simp [nodesum]⟩
          rw [chtGo_succ]
          simp [popMin]
  | succ f ih =>
      intro l hne hlen hinv
      cases h1 : popMin l with
      | none => exact absurd (popMin_eq_none.mp h1) hne
      | some p1 =>
          obtain ⟨n1, l1⟩ := p1
          cases h2 : popMin l1 with
          | none =>
              have hl1 : l1 = [] := popMin_eq_none.mp h2
              refine ⟨n1, ?_, hinv n1 (popMin_mem h1).1, ?_⟩
              · simp only [chtGo_succ, h1, h2]
              · rw [popMin_nodesum h1, hl1]
                simp [nodesum]
          | some p2 =>
              obtain ⟨n2, l2⟩ := p2
              have hm1 := popMin_mem h1
              have hm2 := popMin_mem h2
              have hinv1 : invB n1 = true := hinv n1 hm1.1
              have hinv2 : invB n2 = true := hinv n2 (hm1.2 n2 hm2.1)
              set fr := n1.variant_freq + n2.variant_freq with hfr
              set pr := n1.cmp_pair n2 with hpr
              have hbr : invB (Node.branch pr.1 pr.2 fr) = true := by
                rw [hpr, Node.cmp_pair]
                split
                · simp [invB, hinv1, hinv2, hfr, Node.variant_freq]
                · simp [invB, hinv1, hinv2, hfr, Node.variant_freq, Nat.add_comm]
              have hnew_inv : ∀ x ∈ Node.branch pr.1 pr.2 fr :: l2, invB x = true := by
                intro x hx
                rcases List.mem_cons.mp hx with rfl | hx2
                · exact hbr
                · exact hinv x (hm1.2 x (hm2.2 x hx2))
              have hlen1 : l.length = l1.length + 1 := popMin_length h1
              have hlen2 : l1.length = l2.length + 1 := popMin_length h2
              have hlen' : (Node.branch pr.1 pr.2 fr :: l2).length ≤ f + 1 := by
                simp only [List.length_cons]
                omega
              obtain ⟨t, hgo, hit, hft⟩ :=
                ih (Node.branch pr.1 pr.2 fr :: l2) (by simp) hlen' hnew_inv
              refine ⟨t, ?_, hit, ?_⟩
              · simp only [chtGo_succ, h1, h2]
                exact hgo
              · rw [hft]
                have hsum2 : nodesum (Node.branch pr.1 pr.2 fr :: l2)
                    = fr + nodesum l2 := by
                  simp [nodesum, Node.variant_freq]
                rw [hsum2, popMin_nodesum h1, popMin_nodesum h2, hfr]
                omega

theorem create_huffman_tree_spec (l : List Node) (hne : l ≠ [])
    (hinv : ∀ x ∈ l, invB x = true) :
    ∃ t, create_huffman_tree l = some t ∧ invB t = true ∧ t.variant_freq = nodesum l := by
  cases l with
  | nil => exact absurd rfl hne
  | cons x xs =>
      have := chtGo_spec xs.length (x :: xs) (by simp) (by simp) hinv
      simpa [create_huffman_tree] using this

theorem invB_leafSum (t : Node) (h : invB t = true) : t.variant_freq = leafSum t := by
  induction t with
  | leaf v f => rfl
  | branch l r f ihl ihr =>
      simp only [invB, Bool.and_eq_true, beq_iff_eq] at h
      obtain ⟨⟨hf, hl⟩, hr⟩ := h
      simp only [leafSum, Node.variant_freq]
      rw [hf, ihl hl, ihr hr]

theorem bump_countSum (c : Char) (t : List (Char × Nat)) :
    countSum (bump c t) = countSum t + 1 := by
  induction t with
  | nil => simp [bump, countSum]
  | cons p rest ih =>
      by_cases h : p.1 = c
      · simp [bump, h, countSum]
        omega
      · simp [bump, h, countSum] at ih ⊢
        omega

theorem freqTable_countSum (input : List Char) :
    countSum (init_frequency_table input) = input.length := by
  suffices h : ∀ acc, countSum (input.foldl (fun t c => bump c t) acc)
      = countSum acc + input.length by
    simpa [init_frequency_table, countSum] using h []
  induction input with
  | nil => intro acc; simp
  | cons c cs ih =>
      intro acc
      simp only [List.foldl_cons, List.length_cons]
      rw [ih (bump c acc), bump_countSum]
      omega

theorem bump_ne_nil (c : Char) (t : List (Char × Nat)) : bump c t ≠ [] := by
  cases t with
  | nil => simp [bump]
  | cons p rest =>
      simp only [bump]
      split <;> simp

theorem freqTable_ne_nil (input : List Char) (h : input ≠ []) :
    init_frequency_table input ≠ [] := by
  have haux : ∀ (cs : List Char) (acc : List (Char × Nat)), acc ≠ [] →
      cs.foldl (fun t c => bump c t) acc ≠ [] := by
    intro cs
    induction cs with
    | nil => intro acc ha; exact ha
    | cons d ds ih =>
        intro acc _
        simp only [List.foldl_cons]
        exact ih (bump d acc) (bump_ne_nil d acc)
  cases input with
  | nil => exact absurd rfl h
  | cons c cs =>
      simp only [init_frequency_table, List.foldl_cons]
      exact haux cs (bump c []) (bump_ne_nil c [])

theorem nodesum_init_queue (t : List (Char × Nat)) :
    nodesum (init_symbol_nodes_prio_queue t) = countSum t := by
  induction t with
  | nil => rfl
  | cons p rest ih =>
      simp only [nodesum, init_symbol_nodes_prio_queue, countSum, List.map_cons,
        List.sum_cons] at ih ⊢
      rw [ih]
      rfl

/-- C5 (confirmed).  For every non-empty input and every iteration order of
its frequency table (any permutation of the modelled table, covering the
arbitrary `HashMap` order), the tree built by `create_huffman_tree`
satisfies the branch-sum invariant, and its root frequency equals the sum
of all leaf frequencies, which equals the length of the input.  (`u32`
frequency arithmetic is modelled as exact natural-number arithmetic.) -/
theorem c5_tree_frequency_invariant (input : List Char) (fl : List (Char × Nat))
    (h1 : input ≠ []) (h2 : fl.Perm (init_frequency_table input)) :
    ∃ t, create_huffman_tree (init_symbol_nodes_prio_queue fl) = some t ∧
      invB t = true ∧ t.variant_freq = leafSum t ∧ leafSum t = input.length := by
  have hfne : fl ≠ [] := by
    intro hnil
    subst hnil
    have := h2.length_eq
    exact freqTable_ne_nil input h1 (List.length_eq_zero.mp this.symm)
  have hqne : init_symbol_nodes_prio_queue fl ≠ [] := by
    cases fl with
    | nil => exact absurd rfl hfne
    | cons p rest => simp [init_symbol_nodes_prio_queue]
  have hinv : ∀ x ∈ init_symbol_nodes_prio_queue fl, invB x = true := by
    intro x hx
    simp only [init_symbol_nodes_prio_queue, List.mem_map] at hx
    obtain ⟨p, _, rfl⟩ := hx
    rfl
  obtain ⟨t, hct, hinvt, hfreq⟩ := create_huffman_tree_spec _ hqne hinv
  have hcs : countSum fl = countSum (init_frequency_table input) := by
    simpa [countSum] using (h2.map Prod.snd).sum_eq
  have hsum : nodesum (init_symbol_nodes_prio_queue fl) = input.length := by
    rw [nodesum_init_queue, hcs, freqTable_countSum]
  have hls := invB_leafSum t hinvt
  exact ⟨t, hct, hinvt, hls, by rw [← hls, hfreq, hsum]⟩

/-- Witness for C5 at the input "aab" with the table in model order. -/
theorem c5_witness :
    ∃ t, create_huffman_tree
        (init_symbol_nodes_prio_queue (init_frequency_table ['a', 'a', 'b'])) = some t ∧
      invB t = true ∧ t.variant_freq = leafSum t ∧
      leafSum t = (['a', 'a', 'b'] : List Char).length :=
  c5_tree_frequency_invariant ['a', 'a', 'b'] (init_frequency_table ['a', 'a', 'b'])
    (by decide) (List.Perm.refl _)

/-- Witness for C4 at the tree built from the input "aab". -/
theorem c4_witness :
    generate_encoding (Node.branch (Node.leaf 'b' 1) (Node.leaf 'a' 2) 3) [] []
      = some [('b', [false]), ('a', [true])] ∧ ¬ ([false] <+: [true]) :=
  ⟨rfl,
    c4_generated_table_prefix_free (Node.branch (Node.leaf 'b' 1) (Node.leaf 'a' 2) 3)
      [('b', [false]), ('a', [true])] rfl 'b' 'a' [false] [true] rfl rfl (by decide)⟩

theorem stripCR_eq_self {l : List Char} (h : l.getLast? ≠ some '\r') :
    stripCR l = l := by
  rw [stripCR, if_neg h]

theorem linesAux_append (seg : List Char) :
    ∀ (rest cur : List Char), '\n' ∉ seg →
      linesAux (seg ++ '\n' :: rest) cur = stripCR (cur ++ seg) :: linesAux rest [] := by
  induction seg with
  | nil =>
      intro rest cur _
      simp [linesAux]
  | cons c cs ih =>
      intro rest cur hmem
      have hc : ¬ c = '\n' := fun hh => hmem (hh ▸ List.mem_cons_self c cs)
      have hcs : '\n' ∉ cs := fun hh => hmem (List.mem_cons_of_mem c hh)
      simp only [List.cons_append, linesAux, if_neg hc, List.append_eq]
      rw [ih rest (cur ++ [c]) hcs, List.append_assoc]
      rfl

theorem fmt_bitvec_mem {bits : List Bool} {c : Char} (h : c ∈ fmt_bitvec bits) :
    c = '0' ∨ c = '1' := by
  simp only [fmt_bitvec, List.mem_map] at h
  obtain ⟨b, _, rfl⟩ := h
  cases b <;> simp

theorem fmt_bitvec_getLast_ne_cr (bits : List Bool) :
    (fmt_bitvec bits).getLast? ≠ some '\r' := by
  intro h
  have hm : '\r' ∈ fmt_bitvec bits := by
    have := List.mem_of_mem_getLast? (l := fmt_bitvec bits) (a := '\r')
    exact this (by rw [h]; exact rfl)
  rcases fmt_bitvec_mem hm with hh | hh <;> simp at hh

theorem rowBody_no_newline (p : Char × List Bool) : '\n' ∉ rowBody p := by
  intro hmem
  rw [rowBody] at hmem
  rcases List.mem_append.mp hmem with hpre | hfmt
  · by_cases hp : p.1 = '\n'
    · rw [if_pos hp] at hpre
      simp at hpre
    · rw [if_neg hp] at hpre
      simp at hpre
      exact hp hpre.symm
  · rcases fmt_bitvec_mem hfmt with hh | hh <;> simp at hh

theorem rowBody_getLast_ne_cr (p : Char × List Bool) (hc : p.2 ≠ []) :
    (rowBody p).getLast? ≠ some '\r' := by
  have hfne : fmt_bitvec p.2 ≠ [] := by
    rw [fmt_bitvec]
    simpa using hc
  rw [rowBody, List.getLast?_append_of_ne_nil _ hfne]
  exact fmt_bitvec_getLast_ne_cr p.2

theorem linesModel_serialize (t : TableB) (hc : ∀ p ∈ t, p.2 ≠ []) :
    linesModel (serializeTable t) = t.map rowBody := by
  induction t with
  | nil => rfl
  | cons p rest ih =>
      have hp := hc p (List.mem_cons_self p rest)
      have hrest : ∀ q ∈ rest, q.2 ≠ [] := fun q hq => hc q (List.mem_cons_of_mem p hq)
      have hstep : serializeTable (p :: rest)
          = rowBody p ++ '\n' :: serializeTable rest := by
        simp only [serializeTable, List.map_cons, List.flatten_cons, serRow]
        rw [List.append_assoc]
        rfl
      rw [List.map_cons, linesModel, hstep,
        linesAux_append (rowBody p) _ [] (rowBody_no_newline p),
        List.nil_append, stripCR_eq_self (rowBody_getLast_ne_cr p hp)]
      exact congrArg _ (ih hrest)

theorem parseLines_cons_row (p : Char × List Bool) (tail : List (List Char))
    (acc : TableS) (hk : p.1 ≠ '\\') :
    parseLines (rowBody p :: tail) acc
      = parseLines tail (insertT p.1 (fmt_bitvec p.2) acc) := by
  by_cases hpn : p.1 = '\n'
  · have hrow : rowBody p = '\\' :: 'n' :: fmt_bitvec p.2 := by
      simp [rowBody, hpn]
    have h2 : (2 : Nat) ≤ (fmt_bitvec p.2).length + 1 + 1 := by omega
    rw [hrow]
    simp [parseLines, hpn, h2]
  · have hrow : rowBody p = p.1 :: fmt_bitvec p.2 := by
      simp [rowBody, hpn]
    rw [hrow]
    simp only [parseLines, List.drop_succ_cons, List.drop_zero]
    rw [if_neg hk, if_neg hpn]

theorem parseLines_rows (t : TableB) :
    ∀ acc : TableS, (∀ p ∈ t, p.1 ≠ '\\') →
      parseLines (t.map rowBody) acc
        = some (t.foldl (fun a p => insertT p.1 (fmt_bitvec p.2) a) acc) := by
  induction t with
  | nil => intro acc _; rfl
  | cons p rest ih =>
      intro acc hk
      rw [List.map_cons, parseLines_cons_row p _ acc (hk p (List.mem_cons_self p rest)),
        List.foldl_cons]
      exact ih _ (fun q hq => hk q (List.mem_cons_of_mem p hq))

theorem lookupT_eq_none_iff {α : Type} (c : Char) (t : List (Char × α)) :
    lookupT c t = none ↔ c ∉ t.map Prod.fst := by
  induction t with
  | nil => simp [lookupT]
  | cons p rest ih =>
      simp only [lookupT, List.map_cons, List.mem_cons, not_or]
      by_cases h : p.1 = c
      · simp [h]
      · rw [if_neg h]
        constructor
        · intro hn
          exact ⟨fun hc => h hc.symm, ih.mp hn⟩
        · intro hn
          exact ih.mpr hn.2

theorem lookupT_foldl_not_mem {t : TableB} {c : Char} (h : c ∉ t.map Prod.fst) :
    ∀ acc : TableS,
      lookupT c (t.foldl (fun a p => insertT p.1 (fmt_bitvec p.2) a) acc)
        = lookupT c acc := by
  induction t with
  | nil => intro acc; rfl
  | cons p rest ih =>
      intro acc
      simp only [List.map_cons, List.mem_cons, not_or] at h
      rw [List.foldl_cons, ih h.2, lookupT_insertT_ne c p.1 _ acc (fun hh => h.1 hh)]

theorem lookupT_foldl_mem {t : TableB} (hnodup : (t.map Prod.fst).Nodup) {c : Char}
    {v : List Bool} (hv : lookupT c t = some v) :
    ∀ acc : TableS,
      lookupT c (t.foldl (fun a p => insertT p.1 (fmt_bitvec p.2) a) acc)
        = some (fmt_bitvec v) := by
  induction t with
  | nil => simp [lookupT] at hv
  | cons p rest ih =>
      intro acc
      rw [List.map_cons, List.nodup_cons] at hnodup
      by_cases hc : p.1 = c
      · subst hc
        have hv2 : some p.2 = some v := by
          rw [← hv]
          simp [lookupT]
        obtain rfl := Option.some_inj.mp hv2
        rw [List.foldl_cons, lookupT_foldl_not_mem hnodup.1, lookupT_insertT_self]
      · have hv2 : lookupT c rest = some v := by
          rw [← hv]
          simp [lookupT, hc]
        rw [List.foldl_cons]
        exact ih hnodup.2 hv2 _

/-- C2 (corrected).  Header round trip as amended: for every table with
pairwise-distinct keys none of which is the backslash character, ASCII keys
(matching the byte-level slicing of the source) and nonempty codes, parsing
the serialized table text yields a table with exactly the same entries.
The original claim over every table fails: see the counterexample. -/
theorem c2_header_roundtrip_amended (t : TableB)
    (hnodup : (t.map Prod.fst).Nodup)
    (hkeys : ∀ p ∈ t, p.1 ≠ '\\' ∧ p.1.toNat < 128)
    (hcodes : ∀ p ∈ t, p.2 ≠ []) :
    ∃ t', huffman_table (serializeTable t) = some t' ∧
      ∀ c : Char, lookupT c t' = (lookupT c t).map fmt_bitvec := by
  refine ⟨t.foldl (fun a p => insertT p.1 (fmt_bitvec p.2) a) [], ?_, ?_⟩
  · rw [huffman_table, linesModel_serialize t hcodes,
      parseLines_rows t [] (fun p hp => (hkeys p hp).1)]
  · intro c
    cases hv : lookupT c t with
    | none =>
        rw [lookupT_foldl_not_mem ((lookupT_eq_none_iff c t).mp hv)]
        rfl
    | some v =>
        rw [lookupT_foldl_mem hnodup hv]
        rfl

/-- Counterexample for C2 as stated: serializing the table whose only entry
has the backslash character as its key and parsing the result yields a
table whose only entry is keyed by the newline character with an empty
code; in particular the parsed table has no entry at all for the backslash
key, so it is not equal to the original table. -/
theorem c2_counterexample :
    huffman_table (serializeTable [('\\', [false])]) = some [('\n', [])] ∧
      lookupT '\\' [('\n', ([] : List Char))] ≠ some (fmt_bitvec [false]) :=
  ⟨rfl, by decide⟩

/-- Witness for C2 (amended) at a two-entry table containing the newline
symbol as a key. -/
theorem c2_witness :
    ∃ t', huffman_table (serializeTable [('a', [false]), ('\n', [true])]) = some t' ∧
      ∀ c : Char,
        lookupT c t' = (lookupT c [('a', [false]), ('\n', [true])]).map fmt_bitvec :=
  c2_header_roundtrip_amended [('a', [false]), ('\n', [true])]
    (by decide) (by decide) (by decide)

theorem insertT_keys_pred {α : Type} (P : Char → Prop) (k : Char) (v : α) :
    ∀ (t : List (Char × α)), (∀ q ∈ t, P q.1) → P k →
      ∀ q ∈ insertT k v t, P q.1 := by
  intro t
  induction t with
  | nil =>
      intro _ hk q hq
      simp only [insertT, List.mem_singleton] at hq
      subst hq
      exact hk
  | cons p rest ih =>
      intro hP hk q hq
      simp only [insertT] at hq
      by_cases hp : p.1 = k
      · rw [if_pos hp] at hq
        rcases List.mem_cons.mp hq with rfl | hq2
        · exact hk
        · exact hP q (List.mem_cons_of_mem p hq2)
      · rw [if_neg hp] at hq
        rcases List.mem_cons.mp hq with rfl | hq2
        · exact hP _ (List.mem_cons_self _ _)
        · exact ih (fun r hr => hP r (List.mem_cons_of_mem p hr)) hk q hq2

theorem parseLines_keys :
    ∀ (lines : List (List Char)) (t0 t : TableS),
      (∀ q ∈ t0, q.1 ≠ '\\') → parseLines lines t0 = some t →
      ∀ q ∈ t, q.1 ≠ '\\' := by
  intro lines
  induction lines with
  | nil =>
      intro t0 t h0 hp
      obtain rfl := Option.some_inj.mp hp
      exact h0
  | cons line rest ih =>
      intro t0 t h0 hp
      cases line with
      | nil =>
          obtain rfl := Option.some_inj.mp hp
          exact h0
      | cons k0 ks =>
          have hkey : (if k0 = '\\' then '\n' else k0) ≠ '\\' := by
            by_cases hb : k0 = '\\'
            · rw [if_pos hb]
              decide
            · rw [if_neg hb]
              exact hb
          simp only [parseLines] at hp
          by_cases hn : (if k0 = '\\' then '\n' else k0) = '\n'
          · rw [if_pos hn] at hp
            by_cases hlen : 2 ≤ (k0 :: ks).length
            · rw [if_pos hlen] at hp
              exact ih _ t
                (insertT_keys_pred (fun x => x ≠ '\\') _ _ t0 h0 hkey) hp
            · rw [if_neg hlen] at hp
              exact Option.noConfusion hp
          · rw [if_neg hn] at hp
            exact ih _ t (insertT_keys_pred (fun x => x ≠ '\\') _ _ t0 h0 hkey) hp

/-- C10 (corrected).  Backslash escape handling of the header parser, as
amended: for every table line of at least two characters whose first
character is a backslash (second character ASCII, matching the byte-level
slicing of the source), the parser records the newline character as the
entry's symbol and the characters from the third position onward as its
code, regardless of what the second character is; and no successfully
parsed table ever contains an entry keyed by the backslash character.  The
original claim over every backslash-initial line fails on the one-character
line: see the counterexample. -/
theorem c10_backslash_escape_amended :
    (∀ (c : Char) (rest : List Char) (more : List (List Char)) (t : TableS),
      c.toNat < 128 →
      parseLines (('\\' :: c :: rest) :: more) t
        = parseLines more (insertT '\n' rest t)) ∧
    (∀ (raw : List Char) (t : TableS), huffman_table raw = some t →
      ∀ p ∈ t, p.1 ≠ '\\') := by
  constructor
  · intro c rest more t _
    have h2 : (2 : Nat) ≤ rest.length + 1 + 1 := by omega
    simp [parseLines, h2]
  · intro raw t hp
    exact parseLines_keys (linesModel raw) [] t (by simp) hp

/-- Counterexample for C10 as stated: on the one-character table line
consisting of a single backslash the parser does not produce the entry with
the newline symbol and the empty code; it panics (`&line[2..]` is out of
bounds for the one-byte line). -/
theorem c10_counterexample : huffman_table ['\\'] = none := rfl

/-- Witness for C10 (amended) at the line backslash-n-0-1. -/
theorem c10_witness :
    parseLines [['\\', 'n', '0', '1']] [] = some [('\n', ['0', '1'])] ∧
      ('\n' : Char) ≠ '\\' := by
  constructor
  · rw [c10_backslash_escape_amended.1 'n' ['0', '1'] [] [] (by decide)]
    rfl
  · exact c10_backslash_escape_amended.2 ['\\', 'n', '0', '1'] [('\n', ['0', '1'])]
      rfl ('\n', ['0', '1']) (by decide)

/-- C1 (code_bug).  The compress-decompress round trip fails on the input
"aab": the packed payload is the single byte 3 whose five high (padding)
bits are fed to the tree walk by the decoder, each emitting a further 'b',
so decompression returns "aabbbbbb" instead of "aab".  (The header and the
meaningful payload bits themselves round-trip correctly; the trailing pad
bits are the divergence.) -/
theorem c1_roundtrip_fails :
    roundTrip ['a', 'a', 'b'] = some ['a', 'a', 'b', 'b', 'b', 'b', 'b', 'b'] ∧
      roundTrip ['a', 'a', 'b'] ≠ some ['a', 'a', 'b'] :=
  ⟨rfl, by decide⟩

/-- C3 (code_bug).  Compression output depends on the iteration order of the
frequency map: the two orders of the tie-frequency table of the input "ab"
(both permutations of the same map contents, and Rust's `HashMap` fixes no
order between runs) produce different header bytes and different payload
bytes, refuting byte-identical determinism. -/
theorem c3_compression_order_dependent :
    List.Perm [('b', 1), ('a', 1)] (init_frequency_table ['a', 'b']) ∧
      compressFromFreq (init_frequency_table ['a', 'b']) ['a', 'b']
        ≠ compressFromFreq [('b', 1), ('a', 1)] ['a', 'b'] :=
  ⟨by decide, by decide⟩

/-- C6 (code_bug).  On the single-distinct-symbol input "aaaa" the
compressor does not produce the one-entry table with code "0": the huffman
tree is a bare leaf and `Node::generate_encoding` panics on it, so table
generation aborts with no table at all. -/
theorem c6_single_symbol_panics :
    generate_encoding_table ['a', 'a', 'a', 'a'] = none := rfl

/-- C7 (code_bug).  On the empty input the compressor does not return a
"no tree" sentinel with an empty header and payload: `create_huffman_tree`
panics on the empty priority queue, so compression aborts. -/
theorem c7_empty_input_panics :
    generate_encoding_table [] = none := rfl

/-- C8 (code_bug).  Malformed headers are not reported as caller-observable
error values: a non-numeric count line makes `parse_header` panic, and a
declared entry count different from the number of parsed entries makes the
`assert!` in `Reconst::from_str` panic; neither failure is returned to the
caller as a `FormatError` (the model's `none` is the process-terminating
panic; the only error-value channel of the source carries I/O errors). -/
theorem c8_header_parse_panics :
    parse_header (strBytes ['x', '\n']) = none ∧
      parse_header (strBytes ['2', '\n', 'a', '0', '\n']) = none :=
  ⟨rfl, rfl⟩

/-- C9 (code_bug).  Inserting a code that lands on a position already
occupied by a leaf does not fail: `Root::new_traverse` silently replaces
the existing leaf 'a' with the new leaf 'b' and returns successfully,
contradicting the claim (and the function's own panic documentation). -/
theorem c9_silent_leaf_overwrite :
    new_traverse (some ⟨some (DNode.leaf 'a'), none⟩) ['0'] 'b'
      = some ⟨some (DNode.leaf 'b'), none⟩ := rfl

end Huffman

